import Mathlib

/-!
Verification development for the MAC-address normalizer/validator of
`pydantic_extra_types/mac_address.py`.

The embedding translates the module's pattern table (`REGEX_PATTERNS`), the
static method `MacAddress.validate_mac_address`, and the formatter
`MacAddress.__str__` (`self._octets.hex(':')`) into executable Lean
definitions.  Strings are `List Char` restricted to the ASCII fragment the
patterns are written in: the character class `[\dA-F]` with `re.IGNORECASE`
is modelled as the ASCII hex digits, and the `^...$` anchors are modelled as
exact begin/end of string.  Python runtime exceptions that escape the
validator (IndexError, TypeError, ValueError) are modelled as distinguished
error constructors marked as not `structured`, in contrast with the
`PydanticCustomError` values the code raises deliberately.
-/

/-- ASCII hex digit, the character class `[\dA-F]` under `re.IGNORECASE`:
code points 48–57 (`0`–`9`), 97–102 (`a`–`f`), 65–70 (`A`–`F`). -/
def isHexDigit (c : Char) : Bool :=
  (48 ≤ c.toNat && c.toNat ≤ 57) || (97 ≤ c.toNat && c.toNat ≤ 102) ||
    (65 ≤ c.toNat && c.toNat ≤ 70)

/-- Value of one hex digit, as in Python `int(_, 16)` digit decoding. -/
def hexDigitVal (c : Char) : Nat :=
  if 48 ≤ c.toNat && c.toNat ≤ 57 then c.toNat - 48
  else if 97 ≤ c.toNat && c.toNat ≤ 102 then c.toNat - 87
  else if 65 ≤ c.toNat && c.toNat ≤ 70 then c.toNat - 55
  else 0

/-- Hex value of a digit string, big-endian, as `int(s, 16)`. -/
def hexVal (l : List Char) : Nat := l.foldl (fun a c => 16 * a + hexDigitVal c) 0

/-- Lowercase hex digit for a value `< 16`, as produced by `bytes.hex`. -/
def hexChar (n : Nat) : Char :=
  if n < 10 then Char.ofNat (48 + n) else Char.ofNat (87 + n)

/-- Two lowercase hex digits of one byte, as `bytes.hex` renders each byte. -/
def byteHex (b : Nat) : List Char := [hexChar (b / 16), hexChar (b % 16)]

/-- Join groups with a separator character between consecutive groups
(never before the first or after the last group). -/
def joinWith (c : Char) : List (List Char) → List Char
  | [] => []
  | [g] => g
  | g :: g2 :: gs => g ++ c :: joinWith c (g2 :: gs)

/-- Split a string at every occurrence of `c`; inverse of `joinWith` on
groups that do not contain `c`. -/
def splitOnChar (c : Char) : List Char → List (List Char)
  | [] => [[]]
  | x :: xs =>
    match splitOnChar c xs with
    | [] => [[]]
    | p :: ps => if x = c then [] :: p :: ps else (x :: p) :: ps

/-- Remove every occurrence of `c`, as Python `s.replace(c, '')`. -/
def removeChar (c : Char) : List Char → List Char
  | [] => []
  | x :: xs => if x = c then removeChar c xs else x :: removeChar c xs

/-- First non-`none` entry of a list of options; models the chain
`mac_match = mac_match or pattern.match(value)` over the pattern table. -/
def firstSome {α : Type} : List (Option α) → Option α
  | [] => none
  | some x :: _ => some x
  | none :: rest => firstSome rest

/-- Big-endian byte encoding of `v` on exactly `n` bytes, as Python
`v.to_bytes(n, 'big')` (callers always have `v < 256 ^ n`). -/
def toBytesBE : Nat → Nat → List Nat
  | 0, _ => []
  | n + 1, v => toBytesBE n (v / 256) ++ [v % 256]

/-- Big-endian byte decoding, as Python `int.from_bytes(_, 'big')`. -/
def fromBytesBE (l : List Nat) : Nat := l.foldl (fun a b => 256 * a + b) 0

/-- Python `int.bit_length()` for a non-negative integer. -/
def pyBitLength (v : Nat) : Nat := if v = 0 then 0 else Nat.log2 v + 1

/-- `min_octets` of the integer path:
`min_octets, rem = divmod(value.bit_length(), 8); min_octets += rem > 0`. -/
def minOctets (v : Nat) : Nat :=
  pyBitLength v / 8 + (if pyBitLength v % 8 > 0 then 1 else 0)

/-- The loop `for num_octets in (*VIABLE_OCTET_COUNTS, min_octets): if
num_octets >= min_octets: break` (the last candidate always breaks). -/
def pickOctets (minOct : Nat) : Nat :=
  if 6 ≥ minOct then 6
  else if 8 ≥ minOct then 8
  else if 20 ≥ minOct then 20
  else minOct

/-- `VIABLE_OCTET_COUNTS = 6, 8, 20` from the source module. -/
def VIABLE_OCTET_COUNTS : List Nat := [6, 8, 20]

/-- `VALID_DELIMETERS = ':-.'` from the source module. -/
def VALID_DELIMETERS : List Char := [':', '-', '.']

/-- One entry of the pattern table: a regex of the shape
`^H{2w}(D?)(H{2w}\1){g-2}H{2w}$` where `H` is a hex digit and `D` ranges
over `delims`.  `width` is the group width in bytes, `groups` the number of
hex groups, so the entry recognizes `width * groups` octets. -/
structure MacPattern where
  width : Nat
  delims : List Char
  groups : Nat
deriving DecidableEq

/-- Octet count recognized by a pattern-table entry. -/
def MacPattern.octets (p : MacPattern) : Nat := p.width * p.groups

/-- The six compiled patterns `REGEX_PATTERNS` of the source, in order:
`^[\dA-F]{2}([:-]?)([\dA-F]{2}\1){4}[\dA-F]{2}$` and its 8- and 20-octet
versions, then `^[\dA-F]{4}(\.?)([\dA-F]{4}\1){1}[\dA-F]{4}$` and its
8- and 20-octet versions (all with `re.IGNORECASE`). -/
def REGEX_PATTERNS : List MacPattern :=
  [⟨1, [':', '-'], 6⟩, ⟨1, [':', '-'], 8⟩, ⟨1, [':', '-'], 20⟩,
   ⟨2, ['.'], 3⟩, ⟨2, ['.'], 4⟩, ⟨2, ['.'], 10⟩]

/-- One hex group of `2 * w` hex digits. -/
def goodGroup (w : Nat) (p : List Char) : Bool :=
  p.length = 2 * w && p.all isHexDigit

/-- Match with delimiter capture `c`: the string is `g` groups of `2 * w`
hex digits joined by `c`.  Because the backreference `\1` forces one
consistent separator, this is equivalent to splitting on `c`. -/
def matchWithDelim (c : Char) (w g : Nat) (s : List Char) : Bool :=
  (splitOnChar c s).length = g && (splitOnChar c s).all (goodGroup w)

/-- Match with the delimiter group capturing the empty string: the whole
string is `2 * w * g` hex digits. -/
def matchNoDelim (w g : Nat) (s : List Char) : Bool :=
  s.length = 2 * w * g && s.all isHexDigit

/-- Result of matching one pattern entry: `none` for no match, otherwise
the captured delimiter group (`some c`, or `none` for the empty capture).
At most one capture can succeed, so trying the delimiter characters and
then the empty capture reproduces the regex semantics. -/
def patternMatch (w : Nat) (ds : List Char) (g : Nat) (s : List Char) :
    Option (Option Char) :=
  match ds.find? (fun c => matchWithDelim c w g s) with
  | some c => some (some c)
  | none => if matchNoDelim w g s then some none else none

/-- Run one pattern-table entry on a string. -/
def runPattern (p : MacPattern) (s : List Char) : Option (Option Char) :=
  patternMatch p.width p.delims p.groups s

/-- The loop over `REGEX_PATTERNS` keeping the first match, returning the
captured delimiter group of the winning pattern. -/
def findMatch (s : List Char) : Option (Option Char) :=
  firstSome (REGEX_PATTERNS.map (fun p => runPattern p s))

/-- One element of a Python sequence passed to the validator: an `int`, or
any non-integer object. -/
inductive PyElem where
  | int (n : Int)
  | other
deriving DecidableEq

/-- The declared input type of `validate_mac_address`:
`str | int | Sequence[int]`. -/
inductive PyValue where
  | str (s : List Char)
  | int (n : Int)
  | seq (xs : List PyElem)
deriving DecidableEq

/-- Outcomes of a failed validation.  The first four are the
`PydanticCustomError` values the code raises deliberately; the last three
model Python runtime exceptions escaping the function uncontrolled. -/
inductive MacErr where
  /-- `'Length and/or format of MAC address string is incorrect.'` -/
  | lengthFormat
  /-- `'MAC Address format unrecognized.'` -/
  | unrecognized
  /-- `'Octets are strictly 8-bit, cannot be bigger than 255.'` -/
  | octetTooBig
  /-- `'Length of MAC Address (number of octets) must be in {valid} got {n}.'`
  with `valid = VIABLE_OCTET_COUNTS` and the offending length `n`. -/
  | badLength (n : Nat)
  /-- Python `IndexError` from `value[0]` on an empty sequence. -/
  | indexError
  /-- Python `TypeError` from `octet > 0xff` on a non-integer element. -/
  | typeError
  /-- Python `ValueError` from `bytes(value)` on an element outside
  `range(0, 256)`. -/
  | valueError
deriving DecidableEq

/-- Whether the error is a structured validation error
(a `PydanticCustomError`) rather than an uncontrolled runtime fault. -/
def MacErr.structured : MacErr → Bool
  | .lengthFormat | .unrecognized | .octetTooBig | .badLength _ => true
  | .indexError | .typeError | .valueError => false

/-- String branch of `validate_mac_address`: try the patterns, strip the
captured delimiter, and decode `int(value, 16).to_bytes(len(value) // 2,
'big')`. -/
def strToBytes (s : List Char) : Except MacErr (List Nat) :=
  match findMatch s with
  | none => .error .lengthFormat
  | some d =>
    let stripped := match d with
      | none => s
      | some c => removeChar c s
    .ok (toBytesBE (stripped.length / 2) (hexVal stripped))

/-- Integer branch of `validate_mac_address`:
`value.to_bytes(num_octets, 'big')` for the selected octet count. -/
def intToBytes (v : Nat) : List Nat := toBytesBE (pickOctets (minOctets v)) v

/-- Intermediate value after the string and integer branches: either a
sequence (original input, or the bytes the branches produced), or an `int`
that fell through (a negative one). -/
inductive MidValue where
  | intVal (n : Int)
  | seqVal (xs : List PyElem)
deriving DecidableEq

/-- The check `if not isinstance(value, Sequence) or not
isinstance(value[0], int)`.  `value[0]` is only evaluated on sequences and
raises `IndexError` on an empty one. -/
def dispatchCheck : MidValue → Option MacErr
  | .intVal _ => some .unrecognized
  | .seqVal [] => some .indexError
  | .seqVal (PyElem.other :: _) => some .unrecognized
  | .seqVal (PyElem.int _ :: _) => none

/-- The check `if any([octet > 0xff for octet in value])`.  The
comprehension compares every element with `0xff`, raising `TypeError` on a
non-integer element; only the upper bound is tested. -/
def octetCheck (xs : List PyElem) : Option MacErr :=
  if xs.all (fun e => match e with | .int _ => true | .other => false) then
    if xs.any (fun e => match e with
        | .int n => decide (255 < n)
        | .other => false) then
      some .octetTooBig
    else none
  else some .typeError

/-- The check `if len(value) not in VIABLE_OCTET_COUNTS`. -/
def lengthCheck (xs : List PyElem) : Option MacErr :=
  if xs.length ∈ VIABLE_OCTET_COUNTS then none
  else some (.badLength xs.length)

/-- The final `return bytes(value)`: `bytes` accepts integers in
`range(0, 256)` and raises `ValueError` otherwise (elements above 255 were
already rejected, so only negative elements can trigger it here). -/
def bytesConv (xs : List PyElem) : Except MacErr (List Nat) :=
  if xs.all (fun e => match e with
      | .int n => decide (0 ≤ n ∧ n ≤ 255)
      | .other => false) then
    .ok (xs.map (fun e => match e with | .int n => n.toNat | .other => 0))
  else .error .valueError

/-- The uniform tail of `validate_mac_address` applied after the string and
integer branches: sequence/first-element dispatch, octet range check,
length check, and the final `bytes(value)` conversion. -/
def runChecks (mid : MidValue) : Except MacErr (List Nat) :=
  match dispatchCheck mid with
  | some e => .error e
  | none =>
    let xs := match mid with | .intVal _ => [] | .seqVal l => l
    match octetCheck xs with
    | some e => .error e
    | none =>
      match lengthCheck xs with
      | some e => .error e
      | none => bytesConv xs

/-- `MacAddress.validate_mac_address` as a whole: dispatch on the input
shape, convert the string and non-negative integer branches to bytes, then
run the uniform checks. -/
def validate_mac_address (value : PyValue) : Except MacErr (List Nat) :=
  let step1 : Except MacErr MidValue :=
    match value with
    | .str s =>
      match strToBytes s with
      | .error e => .error e
      | .ok bs => .ok (.seqVal (bs.map (fun b => PyElem.int (Int.ofNat b))))
    | .int n =>
      if 0 ≤ n then
        .ok (.seqVal ((intToBytes n.toNat).map (fun b => PyElem.int (Int.ofNat b))))
      else .ok (.intVal n)
    | .seq xs => .ok (.seqVal xs)
  match step1 with
  | .error e => .error e
  | .ok mid => runChecks mid

/-- `MacAddress.__str__`: `self._octets.hex(':')`, lowercase hex byte
pairs joined by `:`. -/
def formatMac (octs : List Nat) : List Char := joinWith ':' (octs.map byteHex)

/-- Group a character list into consecutive pairs. -/
def chunkPairs : List Char → List (List Char)
  | [] => []
  | [a] => [[a]]
  | a :: b :: rest => [a, b] :: chunkPairs rest

/-- Lowercasing of an ASCII (hex) character: map `A`–`F` to `a`–`f`. -/
def lowerHex (c : Char) : Char :=
  if 65 ≤ c.toNat && c.toNat ≤ 70 then Char.ofNat (c.toNat + 32) else c

/-- Keep only the hex digits of a string (drops the delimiters). -/
def keepHex : List Char → List Char
  | [] => []
  | x :: xs => if isHexDigit x then x :: keepHex xs else keepHex xs

/-- Modelled from the spec: the canonicalization of a recognized textual
form, "the same hex value lowercased and re-delimited with `:` between
byte pairs".  This is the spec-side definition `canonicalize` that claim
C2 compares with the code-side `formatMac ∘ parse`. -/
def canonicalize (s : List Char) : List Char :=
  joinWith ':' (chunkPairs ((keepHex s).map lowerHex))

deriving instance DecidableEq for Except

/-! ### List-level lemmas about splitting and joining -/

theorem splitOnChar_ne_nil (c : Char) (s : List Char) : splitOnChar c s ≠ [] := by
  induction s with
  | nil => simp [splitOnChar]
  | cons x xs ih =>
    simp only [splitOnChar]
    cases h : splitOnChar c xs with
    | nil => simp
    | cons p ps => by_cases hx : x = c <;> simp [hx]

theorem joinWith_cons_head (c x : Char) (p : List Char) (ps : List (List Char)) :
    joinWith c ((x :: p) :: ps) = x :: joinWith c (p :: ps) := by
  cases ps <;> simp [joinWith]

theorem joinWith_splitOnChar (c : Char) (s : List Char) :
    joinWith c (splitOnChar c s) = s := by
  induction s with
  | nil => simp [splitOnChar, joinWith]
  | cons x xs ih =>
    simp only [splitOnChar]
    cases h : splitOnChar c xs with
    | nil => exact absurd h (splitOnChar_ne_nil c xs)
    | cons p ps =>
      dsimp only
      by_cases hx : x = c
      · rw [if_pos hx]
        show c :: joinWith c (p :: ps) = x :: xs
        rw [← h, ih, hx]
      · rw [if_neg hx, joinWith_cons_head, ← h, ih]

theorem splitOnChar_of_not_mem {c : Char} {s : List Char} (h : c ∉ s) :
    splitOnChar c s = [s] := by
  induction s with
  | nil => rfl
  | cons x xs ih =>
    simp only [List.mem_cons, not_or] at h
    simp only [splitOnChar, ih h.2]
    rw [if_neg (fun hx => h.1 hx.symm)]

theorem splitOnChar_append_cons {c : Char} {g : List Char} (t : List Char)
    (hg : c ∉ g) : splitOnChar c (g ++ c :: t) = g :: splitOnChar c t := by
  induction g with
  | nil =>
    simp only [List.nil_append, splitOnChar]
    cases h : splitOnChar c t with
    | nil => exact absurd h (splitOnChar_ne_nil c t)
    | cons p ps => simp
  | cons a g ih =>
    simp only [List.mem_cons, not_or] at hg
    have ih2 := ih hg.2
    show (match splitOnChar c (g ++ c :: t) with
      | [] => [[]]
      | p :: ps => if a = c then [] :: p :: ps else (a :: p) :: ps) =
      (a :: g) :: splitOnChar c t
    rw [ih2]
    dsimp only
    rw [if_neg (fun ha => hg.1 ha.symm)]

theorem splitOnChar_joinWith (c : Char) :
    ∀ (gs : List (List Char)), gs ≠ [] → (∀ g ∈ gs, c ∉ g) →
      splitOnChar c (joinWith c gs) = gs
  | [], h, _ => absurd rfl h
  | [g], _, hmem => by
    simp only [joinWith]
    exact splitOnChar_of_not_mem (hmem g (by simp))
  | g :: g2 :: gs, _, hmem => by
    simp only [joinWith]
    rw [splitOnChar_append_cons _ (hmem g (by simp)),
      splitOnChar_joinWith c (g2 :: gs) (by simp)
        (fun x hx => hmem x (List.mem_cons_of_mem g hx))]

theorem mem_joinWith (c : Char) :
    ∀ (gs : List (List Char)) (x : Char), x ∈ joinWith c gs →
      x = c ∨ ∃ g ∈ gs, x ∈ g
  | [], x, h => by simp [joinWith] at h
  | [g], x, h => by
    simp only [joinWith] at h
    exact .inr ⟨g, by simp, h⟩
  | g :: g2 :: gs, x, h => by
    simp only [joinWith, List.mem_append, List.mem_cons] at h
    rcases h with h | h | h
    · exact .inr ⟨g, by simp, h⟩
    · exact .inl h
    · rcases mem_joinWith c (g2 :: gs) x h with h | ⟨g1, hg1, hx⟩
      · exact .inl h
      · exact .inr ⟨g1, by simp [List.mem_cons_of_mem, hg1], hx⟩

theorem self_mem_joinWith (c : Char) (g g2 : List Char) (gs : List (List Char)) :
    c ∈ joinWith c (g :: g2 :: gs) := by
  simp [joinWith]

theorem length_joinWith (c : Char) :
    ∀ gs : List (List Char),
      (joinWith c gs).length = (gs.map List.length).sum + gs.length - 1
  | [] => by simp [joinWith]
  | [g] => by simp [joinWith]
  | g :: g2 :: gs => by
    have ih := length_joinWith c (g2 :: gs)
    simp only [joinWith, List.length_append, List.length_cons] at *
    simp only [List.map_cons, List.sum_cons] at *
    omega

theorem removeChar_append (c : Char) (l1 l2 : List Char) :
    removeChar c (l1 ++ l2) = removeChar c l1 ++ removeChar c l2 := by
  induction l1 with
  | nil => rfl
  | cons x xs ih =>
    simp only [List.cons_append, removeChar]
    split <;> simp [ih]

theorem removeChar_of_not_mem {c : Char} {l : List Char} (h : c ∉ l) :
    removeChar c l = l := by
  induction l with
  | nil => rfl
  | cons x xs ih =>
    simp only [List.mem_cons, not_or] at h
    simp only [removeChar, ih h.2]
    rw [if_neg (fun hx => h.1 hx.symm)]

theorem removeChar_joinWith (c : Char) :
    ∀ gs : List (List Char), (∀ g ∈ gs, c ∉ g) →
      removeChar c (joinWith c gs) = gs.flatten
  | [], _ => rfl
  | [g], hmem => by
    simp only [joinWith, List.flatten_cons, List.flatten_nil, List.append_nil]
    exact removeChar_of_not_mem (hmem g (by simp))
  | g :: g2 :: gs, hmem => by
    simp only [joinWith, List.flatten_cons]
    rw [removeChar_append, removeChar_of_not_mem (hmem g (by simp))]
    simp only [removeChar, if_pos rfl]
    rw [removeChar_joinWith c (g2 :: gs)
      (fun x hx => hmem x (List.mem_cons_of_mem g hx))]
    simp [List.flatten_cons]

theorem keepHex_append (l1 l2 : List Char) :
    keepHex (l1 ++ l2) = keepHex l1 ++ keepHex l2 := by
  induction l1 with
  | nil => rfl
  | cons x xs ih =>
    simp only [List.cons_append, keepHex]
    split <;> simp [ih]

theorem keepHex_of_all {l : List Char} (h : l.all isHexDigit = true) :
    keepHex l = l := by
  induction l with
  | nil => rfl
  | cons x xs ih =>
    simp only [List.all_cons, Bool.and_eq_true] at h
    simp [keepHex, h.1, ih h.2]

theorem keepHex_joinWith (c : Char) (hc : isHexDigit c = false) :
    ∀ gs : List (List Char), (∀ g ∈ gs, g.all isHexDigit = true) →
      keepHex (joinWith c gs) = gs.flatten
  | [], _ => rfl
  | [g], hmem => by
    simp only [joinWith, List.flatten_cons, List.flatten_nil, List.append_nil]
    exact keepHex_of_all (hmem g (by simp))
  | g :: g2 :: gs, hmem => by
    simp only [joinWith, List.flatten_cons]
    rw [keepHex_append, keepHex_of_all (hmem g (by simp))]
    simp only [keepHex, hc, Bool.false_eq_true, if_false]
    rw [keepHex_joinWith c hc (g2 :: gs)
      (fun x hx => hmem x (List.mem_cons_of_mem g hx))]
    simp [List.flatten_cons]

theorem chunkPairs_flatten :
    ∀ gs : List (List Char), (∀ g ∈ gs, g.length = 2) →
      chunkPairs gs.flatten = gs := by
  intro gs
  induction gs with
  | nil => intro _; rfl
  | cons g gs ih =>
    intro hmem
    match g, hmem g (by simp) with
    | [a, b], _ =>
      simp only [List.flatten_cons, List.cons_append, List.nil_append]
      show chunkPairs (a :: b :: gs.flatten) = [a, b] :: gs
      simp only [chunkPairs]
      rw [ih (fun x hx => hmem x (List.mem_cons_of_mem _ hx))]

theorem length_flatten_const {k : Nat} :
    ∀ gs : List (List Char), (∀ g ∈ gs, g.length = k) →
      gs.flatten.length = k * gs.length
  | [], _ => by simp
  | g :: gs, hmem => by
    simp only [List.flatten_cons, List.length_append, List.length_cons]
    rw [hmem g (by simp), length_flatten_const gs
      (fun x hx => hmem x (List.mem_cons_of_mem g hx))]
    ring

/-! ### Character-level lemmas -/

theorem charToNat_ofNat_small {n : Nat} (h : n < 55296) :
    (Char.ofNat n).toNat = n := by
  have hv : n < 55296 ∨ 57343 < n ∧ n < 1114112 := Or.inl h
  simp [Char.ofNat, dif_pos hv, Char.ofNatAux, Char.toNat, UInt32.toNat,
    UInt32.ofNat', BitVec.toNat_ofNatLt]

theorem hexDigitVal_lt (c : Char) : hexDigitVal c < 16 := by
  unfold hexDigitVal
  split_ifs with h1 h2 h3
  · simp only [Bool.and_eq_true, decide_eq_true_eq] at h1; omega
  · simp only [Bool.and_eq_true, decide_eq_true_eq] at h2; omega
  · simp only [Bool.and_eq_true, decide_eq_true_eq] at h3; omega
  · omega

theorem hexChar_hexDigitVal {c : Char} (h : isHexDigit c = true) :
    hexChar (hexDigitVal c) = lowerHex c := by
  have h' : ((48 ≤ c.toNat ∧ c.toNat ≤ 57) ∨ (97 ≤ c.toNat ∧ c.toNat ≤ 102)) ∨
      (65 ≤ c.toNat ∧ c.toNat ≤ 70) := by
    simpa [isHexDigit, Bool.or_eq_true, Bool.and_eq_true, decide_eq_true_eq]
      using h
  have hcond : ∀ a b : Nat, a ≤ c.toNat → c.toNat ≤ b →
      ((decide (a ≤ c.toNat) && decide (c.toNat ≤ b)) = true) := by
    intro a b ha hb
    simp only [Bool.and_eq_true, decide_eq_true_eq]
    exact ⟨ha, hb⟩
  have hncond : ∀ a b : Nat, (c.toNat < a ∨ b < c.toNat) →
      ¬((decide (a ≤ c.toNat) && decide (c.toNat ≤ b)) = true) := by
    intro a b hab
    simp only [Bool.and_eq_true, decide_eq_true_eq]
    omega
  rcases h' with (⟨h1, h2⟩ | ⟨h1, h2⟩) | ⟨h1, h2⟩
  · have e1 : hexDigitVal c = c.toNat - 48 := by
      unfold hexDigitVal
      rw [if_pos (hcond 48 57 h1 h2)]
    rw [e1]
    unfold hexChar
    rw [if_pos (by omega)]
    unfold lowerHex
    rw [if_neg (hncond 65 70 (by omega))]
    rw [show 48 + (c.toNat - 48) = c.toNat from by omega, Char.ofNat_toNat]
  · have e1 : hexDigitVal c = c.toNat - 87 := by
      unfold hexDigitVal
      rw [if_neg (hncond 48 57 (by omega)), if_pos (hcond 97 102 h1 h2)]
    rw [e1]
    unfold hexChar
    rw [if_neg (by omega)]
    unfold lowerHex
    rw [if_neg (hncond 65 70 (by omega))]
    rw [show 87 + (c.toNat - 87) = c.toNat from by omega, Char.ofNat_toNat]
  · have e1 : hexDigitVal c = c.toNat - 55 := by
      unfold hexDigitVal
      rw [if_neg (hncond 48 57 (by omega)), if_neg (hncond 97 102 (by omega)),
        if_pos (hcond 65 70 h1 h2)]
    rw [e1]
    unfold hexChar
    rw [if_neg (by omega)]
    unfold lowerHex
    rw [if_pos (hcond 65 70 h1 h2)]
    rw [show 87 + (c.toNat - 55) = c.toNat + 32 from by omega]

theorem hexDigitVal_hexChar {n : Nat} (h : n < 16) :
    hexDigitVal (hexChar n) = n := by
  have hall : ∀ m : Fin 16, hexDigitVal (hexChar m.val) = m.val := by decide
  exact hall ⟨n, h⟩

theorem hexChar_facts :
    ∀ m : Fin 16, isHexDigit (hexChar m.val) = true ∧ hexChar m.val ≠ ':' ∧
      hexChar m.val ≠ '-' ∧ hexChar m.val ≠ '.' := by decide

theorem byteHex_length (b : Nat) : (byteHex b).length = 2 := rfl

theorem byteHex_hex {b : Nat} (hb : b < 256) :
    (byteHex b).all isHexDigit = true := by
  have h1 := hexChar_facts ⟨b / 16, by omega⟩
  have h2 := hexChar_facts ⟨b % 16, by omega⟩
  simp [byteHex, h1.1, h2.1]

theorem not_mem_byteHex {b : Nat} {c : Char} (hb : b < 256)
    (hc : c = ':' ∨ c = '-' ∨ c = '.') : c ∉ byteHex b := by
  have h1 := hexChar_facts ⟨b / 16, by omega⟩
  have h2 := hexChar_facts ⟨b % 16, by omega⟩
  simp only [byteHex, List.mem_cons, List.not_mem_nil, or_false]
  rcases hc with rfl | rfl | rfl
  · exact fun h => h.elim (fun h => h1.2.1 h.symm) (fun h => h2.2.1 h.symm)
  · exact fun h => h.elim (fun h => h1.2.2.1 h.symm) (fun h => h2.2.2.1 h.symm)
  · exact fun h => h.elim (fun h => h1.2.2.2 h.symm) (fun h => h2.2.2.2 h.symm)

/-! ### Numeric lemmas about byte and hex encodings -/

theorem toBytesBE_length : ∀ (n v : Nat), (toBytesBE n v).length = n
  | 0, _ => rfl
  | n + 1, v => by
    simp [toBytesBE, toBytesBE_length n (v / 256)]

theorem toBytesBE_lt : ∀ (n v : Nat), ∀ x ∈ toBytesBE n v, x < 256
  | 0, _ => by simp [toBytesBE]
  | n + 1, v => by
    simp only [toBytesBE, List.mem_append, List.mem_singleton]
    intro x hx
    rcases hx with hx | rfl
    · exact toBytesBE_lt n (v / 256) x hx
    · omega

theorem fromBytesBE_append (l : List Nat) (b : Nat) :
    fromBytesBE (l ++ [b]) = 256 * fromBytesBE l + b := by
  simp [fromBytesBE, List.foldl_append]

theorem toBytesBE_fromBytesBE (l : List Nat) (hl : ∀ x ∈ l, x < 256) :
    toBytesBE l.length (fromBytesBE l) = l := by
  induction l using List.reverseRecOn with
  | nil => rfl
  | append_singleton l b ih =>
    have hb : b < 256 := hl b (by simp)
    rw [List.length_append, List.length_singleton, fromBytesBE_append]
    show toBytesBE (l.length + 1) _ = _
    simp only [toBytesBE]
    rw [show (256 * fromBytesBE l + b) / 256 = fromBytesBE l from by omega,
      show (256 * fromBytesBE l + b) % 256 = b from by omega,
      ih (fun x hx => hl x (by simp [hx]))]

theorem fromBytesBE_toBytesBE : ∀ (n v : Nat), v < 256 ^ n →
    fromBytesBE (toBytesBE n v) = v
  | 0, v, h => by
    simp only [Nat.pow_zero, Nat.lt_one_iff] at h
    simp [toBytesBE, fromBytesBE, h]
  | n + 1, v, h => by
    have hd : v / 256 < 256 ^ n := by
      rw [Nat.div_lt_iff_lt_mul (by norm_num)]
      calc v < 256 ^ (n + 1) := h
        _ = 256 ^ n * 256 := by ring
    simp only [toBytesBE, fromBytesBE_append,
      fromBytesBE_toBytesBE n (v / 256) hd]
    omega

theorem toBytesBE_succ_left : ∀ (n v : Nat),
    toBytesBE (n + 1) v = (v / 256 ^ n) % 256 :: toBytesBE n (v % 256 ^ n)
  | 0, v => by simp [toBytesBE]
  | n + 1, v => by
    show toBytesBE (n + 1) (v / 256) ++ [v % 256] = _
    rw [toBytesBE_succ_left n (v / 256)]
    have e1 : v / 256 / 256 ^ n = v / 256 ^ (n + 1) := by
      rw [Nat.div_div_eq_div_mul, ← Nat.pow_succ']
    have e2 : v / 256 % 256 ^ n = v % 256 ^ (n + 1) / 256 := by
      rw [Nat.pow_succ', Nat.mod_mul_right_div_self]
    have e3 : v % 256 = v % 256 ^ (n + 1) % 256 := by
      rw [Nat.mod_mod_of_dvd v (dvd_pow_self 256 (Nat.succ_ne_zero n))]
    rw [e1, e2, e3]
    show _ :: (toBytesBE n _ ++ [_]) = _ :: toBytesBE (n + 1) _
    rw [show toBytesBE (n + 1) (v % 256 ^ (n + 1)) =
      toBytesBE n (v % 256 ^ (n + 1) / 256) ++ [v % 256 ^ (n + 1) % 256]
      from rfl]

theorem hexVal_go (l : List Char) : ∀ a : Nat,
    l.foldl (fun x c => 16 * x + hexDigitVal c) a =
      16 ^ l.length * a + hexVal l := by
  induction l with
  | nil => intro a; simp [hexVal]
  | cons c l ih =>
    intro a
    show l.foldl (fun x c => 16 * x + hexDigitVal c) (16 * a + hexDigitVal c) =
      16 ^ (c :: l).length * a + hexVal (c :: l)
    rw [ih (16 * a + hexDigitVal c)]
    have hc : hexVal (c :: l) = 16 ^ l.length * hexDigitVal c + hexVal l := by
      show l.foldl (fun x c => 16 * x + hexDigitVal c) (16 * 0 + hexDigitVal c) = _
      rw [ih (16 * 0 + hexDigitVal c)]
      ring
    rw [hc, List.length_cons]
    ring

theorem hexVal_append (l1 l2 : List Char) :
    hexVal (l1 ++ l2) = 16 ^ l2.length * hexVal l1 + hexVal l2 := by
  show (l1 ++ l2).foldl (fun x c => 16 * x + hexDigitVal c) 0 = _
  rw [List.foldl_append]
  exact hexVal_go l2 (hexVal l1)

theorem hexVal_lt (l : List Char) : hexVal l < 16 ^ l.length := by
  induction l using List.reverseRecOn with
  | nil => simp [hexVal]
  | append_singleton l c ih =>
    rw [hexVal_append]
    have hd : hexDigitVal c < 16 := hexDigitVal_lt c
    have he : hexVal [c] = hexDigitVal c := by simp [hexVal]
    rw [List.length_append, List.length_singleton, pow_succ]
    simp only [List.length_singleton, pow_one, he]
    omega

theorem pairInd {α : Type} (motive : List α → Prop) (h0 : motive [])
    (h1 : ∀ a, motive [a]) (h2 : ∀ a b l, motive l → motive (a :: b :: l)) :
    ∀ l, motive l
  | [] => h0
  | [a] => h1 a
  | a :: b :: l => h2 a b l (pairInd motive h0 h1 h2 l)

theorem flatten_byteHex_toBytesBE (l : List Char) (heven : l.length % 2 = 0)
    (hhex : l.all isHexDigit = true) :
    (List.map byteHex (toBytesBE (l.length / 2) (hexVal l))).flatten =
      l.map lowerHex := by
  induction l using pairInd with
  | h0 => rfl
  | h1 a => simp at heven
  | h2 a b l ih =>
    simp only [List.length_cons] at heven ⊢
    simp only [List.all_cons, Bool.and_eq_true] at hhex
    have hlen : l.length % 2 = 0 := by omega
    have hda : hexDigitVal a < 16 := hexDigitVal_lt a
    have hdb : hexDigitVal b < 16 := hexDigitVal_lt b
    set n := l.length / 2 with hn
    have hl2 : l.length = 2 * n := by omega
    have hnn : (l.length + 1 + 1) / 2 = n + 1 := by omega
    have hv : hexVal (a :: b :: l) =
        256 ^ n * (16 * hexDigitVal a + hexDigitVal b) + hexVal l := by
      have : a :: b :: l = [a, b] ++ l := rfl
      rw [this, hexVal_append]
      have hab : hexVal [a, b] = 16 * hexDigitVal a + hexDigitVal b := by
        simp [hexVal]
      rw [hab, hl2, pow_mul]
      norm_num
    have hrl : hexVal l < 256 ^ n := by
      have := hexVal_lt l
      rwa [hl2, pow_mul] at this
      
    have hpv : 16 * hexDigitVal a + hexDigitVal b < 256 := by omega
    rw [hnn, hv, toBytesBE_succ_left]
    have hdiv : (256 ^ n * (16 * hexDigitVal a + hexDigitVal b) + hexVal l) /
        256 ^ n = 16 * hexDigitVal a + hexDigitVal b := by
      rw [Nat.add_comm, Nat.add_mul_div_left _ _ (Nat.pos_pow_of_pos n (by norm_num))]
      rw [Nat.div_eq_of_lt hrl]
      omega
    have hmod : (256 ^ n * (16 * hexDigitVal a + hexDigitVal b) + hexVal l) %
        256 ^ n = hexVal l := by
      rw [Nat.add_comm, Nat.add_mul_mod_self_left, Nat.mod_eq_of_lt hrl]
    rw [hdiv, hmod, Nat.mod_eq_of_lt hpv]
    simp only [List.map_cons, List.flatten_cons]
    rw [ih hlen hhex.2.2]
    have hbh : byteHex (16 * hexDigitVal a + hexDigitVal b) =
        [lowerHex a, lowerHex b] := by
      unfold byteHex
      rw [show (16 * hexDigitVal a + hexDigitVal b) / 16 = hexDigitVal a
          from by omega,
        show (16 * hexDigitVal a + hexDigitVal b) % 16 = hexDigitVal b
          from by omega,
        hexChar_hexDigitVal hhex.1, hexChar_hexDigitVal hhex.2.1]
    rw [hbh]
    rfl

theorem hexVal_flatten_byteHex (a : List Nat) (ha : ∀ x ∈ a, x < 256) :
    hexVal ((a.map byteHex).flatten) = fromBytesBE a := by
  induction a using List.reverseRecOn with
  | nil => rfl
  | append_singleton a b ih =>
    have hb : b < 256 := ha b (by simp)
    rw [List.map_append, List.flatten_append, hexVal_append,
      fromBytesBE_append, ih (fun x hx => ha x (by simp [hx]))]
    have h1 : hexDigitVal (hexChar (b / 16)) = b / 16 :=
      hexDigitVal_hexChar (by omega)
    have h2 : hexDigitVal (hexChar (b % 16)) = b % 16 :=
      hexDigitVal_hexChar (by omega)
    simp only [List.map_cons, List.map_nil, List.flatten_cons, List.flatten_nil,
      List.append_nil, byteHex]
    have h3 : hexVal [hexChar (b / 16), hexChar (b % 16)] =
        16 * (b / 16) + b % 16 := by
      simp [hexVal, h1, h2]
    have h4 : ([hexChar (b / 16), hexChar (b % 16)] : List Char).length = 2 := rfl
    rw [h3, h4]
    have : 16 * (b / 16) + b % 16 = b := by omega
    rw [this]
    ring

/-! ### Lemmas about the pattern matchers -/

theorem sum_length_const {k : Nat} :
    ∀ gs : List (List Char), (∀ g ∈ gs, g.length = k) →
      (gs.map List.length).sum = k * gs.length
  | [], _ => by simp
  | g :: gs, hmem => by
    simp only [List.map_cons, List.sum_cons, List.length_cons]
    rw [hmem g (by simp), sum_length_const gs
      (fun x hx => hmem x (List.mem_cons_of_mem g hx))]
    ring

theorem patternMatch_some_delim {w g : Nat} {ds : List Char} {s : List Char}
    {c : Char} (h : patternMatch w ds g s = some (some c)) :
    matchWithDelim c w g s = true ∧ c ∈ ds := by
  unfold patternMatch at h
  cases hf : ds.find? (fun c => matchWithDelim c w g s) with
  | some c1 =>
    rw [hf] at h
    have hc : c1 = c := by
      injection h with h1
      injection h1
    rw [← hc]
    have hm : matchWithDelim c1 w g s = true := by
      simpa using List.find?_some hf
    exact ⟨hm, List.mem_of_find?_eq_some hf⟩
  | none =>
    rw [hf] at h
    dsimp only at h
    split at h
    · injection h with h1; cases h1
    · cases h

theorem patternMatch_some_empty {w g : Nat} {ds : List Char} {s : List Char}
    (h : patternMatch w ds g s = some none) : matchNoDelim w g s = true := by
  unfold patternMatch at h
  cases hf : ds.find? (fun c => matchWithDelim c w g s) with
  | some c1 =>
    rw [hf] at h
    injection h with h1
    cases h1
  | none =>
    rw [hf] at h
    dsimp only at h
    split at h
    · assumption
    · cases h

theorem matchWithDelim_parts {c : Char} {w g : Nat} {s : List Char}
    (h : matchWithDelim c w g s = true) :
    (splitOnChar c s).length = g ∧
      ∀ p ∈ splitOnChar c s, p.length = 2 * w ∧ p.all isHexDigit = true := by
  unfold matchWithDelim at h
  simp only [Bool.and_eq_true, decide_eq_true_eq, List.all_eq_true] at h
  refine ⟨h.1, fun p hp => ?_⟩
  have := h.2 p hp
  unfold goodGroup at this
  simpa [Bool.and_eq_true, decide_eq_true_eq] using this

theorem matchWithDelim_chars {c : Char} {w g : Nat} {s : List Char}
    (h : matchWithDelim c w g s = true) :
    ∀ x ∈ s, isHexDigit x = true ∨ x = c := by
  intro x hx
  obtain ⟨-, hparts⟩ := matchWithDelim_parts h
  rw [← joinWith_splitOnChar c s] at hx
  rcases mem_joinWith c _ x hx with hc | ⟨p, hp, hxp⟩
  · exact .inr hc
  · have hall := (hparts p hp).2
    simp only [List.all_eq_true] at hall
    exact .inl (hall x hxp)

theorem mem_of_matchWithDelim {c : Char} {w g : Nat} {s : List Char}
    (h : matchWithDelim c w g s = true) (hg : 2 ≤ g) : c ∈ s := by
  obtain ⟨hlen, -⟩ := matchWithDelim_parts h
  rw [← joinWith_splitOnChar c s]
  cases hsp : splitOnChar c s with
  | nil => exact absurd hsp (splitOnChar_ne_nil c s)
  | cons p ps =>
    cases ps with
    | nil => rw [hsp] at hlen; simp at hlen; omega
    | cons p2 ps2 => exact self_mem_joinWith c p p2 ps2

theorem matchWithDelim_length {c : Char} {w g : Nat} {s : List Char}
    (h : matchWithDelim c w g s = true) :
    s.length = 2 * w * g + (g - 1) := by
  obtain ⟨hlen, hparts⟩ := matchWithDelim_parts h
  conv_lhs => rw [← joinWith_splitOnChar c s]
  rw [length_joinWith, sum_length_const _ (fun p hp => (hparts p hp).1), hlen]
  have hg : 1 ≤ g := by
    have := splitOnChar_ne_nil c s
    rw [← hlen]
    cases hsp : splitOnChar c s with
    | nil => exact absurd hsp this
    | cons p ps => simp
  omega

theorem matchNoDelim_spec {w g : Nat} {s : List Char}
    (h : matchNoDelim w g s = true) :
    s.length = 2 * w * g ∧ ∀ x ∈ s, isHexDigit x = true := by
  unfold matchNoDelim at h
  simp only [Bool.and_eq_true, decide_eq_true_eq, List.all_eq_true] at h
  exact h

theorem matchWithDelim_unique {c : Char} {w1 g1 w2 g2 : Nat} {s : List Char}
    (h1 : matchWithDelim c w1 g1 s = true) (h2 : matchWithDelim c w2 g2 s = true) :
    w1 = w2 ∧ g1 = g2 := by
  obtain ⟨hl1, hp1⟩ := matchWithDelim_parts h1
  obtain ⟨hl2, hp2⟩ := matchWithDelim_parts h2
  cases hsp : splitOnChar c s with
  | nil => exact absurd hsp (splitOnChar_ne_nil c s)
  | cons p ps =>
    have e1 := (hp1 p (by rw [hsp]; simp)).1
    have e2 := (hp2 p (by rw [hsp]; simp)).1
    rw [hsp] at hl1 hl2
    constructor
    · omega
    · rw [← hl1, ← hl2]

/-- Pairwise analysis of two pattern-table entries matching the same string:
if the entries have non-hex delimiter alphabets, at least two groups, and
different shapes, then both must have matched with the empty delimiter
capture and they recognize the same total number of octets. -/
theorem pattern_excl (w1 g1 w2 g2 : Nat) (ds1 ds2 : List Char)
    (hds1 : ∀ c ∈ ds1, isHexDigit c = false)
    (hds2 : ∀ c ∈ ds2, isHexDigit c = false)
    (hg1 : 2 ≤ g1) (hg2 : 2 ≤ g2) (hne : w1 ≠ w2 ∨ g1 ≠ g2)
    (s : List Char) (d1 d2 : Option Char)
    (h1 : patternMatch w1 ds1 g1 s = some d1)
    (h2 : patternMatch w2 ds2 g2 s = some d2) :
    w1 * g1 = w2 * g2 ∧ d1 = none ∧ d2 = none := by
  cases d1 with
  | some c1 =>
    obtain ⟨m1, hc1⟩ := patternMatch_some_delim h1
    have hx1 : isHexDigit c1 = false := hds1 c1 hc1
    have hmem1 : c1 ∈ s := mem_of_matchWithDelim m1 hg1
    cases d2 with
    | some c2 =>
      obtain ⟨m2, hc2⟩ := patternMatch_some_delim h2
      rcases matchWithDelim_chars m2 c1 hmem1 with hh | hh
      · rw [hx1] at hh; cases hh
      · subst hh
        obtain ⟨hw, hg⟩ := matchWithDelim_unique m1 m2
        exfalso
        rcases hne with hne | hne
        · exact hne hw
        · exact hne hg
    | none =>
      have hno := patternMatch_some_empty h2
      have := (matchNoDelim_spec hno).2 c1 hmem1
      rw [hx1] at this
      cases this
  | none =>
    have hno1 := patternMatch_some_empty h1
    cases d2 with
    | some c2 =>
      obtain ⟨m2, hc2⟩ := patternMatch_some_delim h2
      have hx2 : isHexDigit c2 = false := hds2 c2 hc2
      have hmem2 : c2 ∈ s := mem_of_matchWithDelim m2 hg2
      have := (matchNoDelim_spec hno1).2 c2 hmem2
      rw [hx2] at this
      cases this
    | none =>
      have hno2 := patternMatch_some_empty h2
      have e1 := (matchNoDelim_spec hno1).1
      have e2 := (matchNoDelim_spec hno2).1
      rw [mul_assoc] at e1 e2
      refine ⟨by omega, rfl, rfl⟩

theorem patternMatch_none_two_delims {s : List Char} {c1 c2 : Char}
    (h1 : c1 ∈ s) (h2 : c2 ∈ s) (hne : c1 ≠ c2)
    (hx1 : isHexDigit c1 = false) (hx2 : isHexDigit c2 = false)
    (w : Nat) (ds : List Char) (g : Nat) : patternMatch w ds g s = none := by
  unfold patternMatch
  cases hf : ds.find? (fun c => matchWithDelim c w g s) with
  | some c =>
    exfalso
    have hm : matchWithDelim c w g s = true := by
      simpa using List.find?_some hf
    have hch := matchWithDelim_chars hm
    rcases hch c1 h1 with e1 | e1
    · rw [hx1] at e1; cases e1
    · rcases hch c2 h2 with e2 | e2
      · rw [hx2] at e2; cases e2
      · exact hne (e1.trans e2.symm)
  | none =>
    dsimp only
    rw [if_neg]
    intro hno
    have := (matchNoDelim_spec hno).2 c1 h1
    rw [hx1] at this
    cases this

theorem firstSome_eq_none {α : Type} :
    ∀ l : List (Option α), (∀ o ∈ l, o = none) → firstSome l = none
  | [], _ => rfl
  | some x :: rest, h => by
    have := h (some x) (by simp)
    cases this
  | none :: rest, h => by
    show firstSome rest = none
    exact firstSome_eq_none rest (fun o ho => h o (List.mem_cons_of_mem _ ho))

/-! ### Lemmas about the uniform check pipeline -/

theorem listAllMap {a b : Type} (l : List a) (f : a → b) (p : b → Bool) :
    (l.map f).all p = l.all (fun x => p (f x)) := by
  induction l with
  | nil => rfl
  | cons x xs ih => simp [ih]

theorem listAnyMap {a b : Type} (l : List a) (f : a → b) (p : b → Bool) :
    (l.map f).any p = l.any (fun x => p (f x)) := by
  induction l with
  | nil => rfl
  | cons x xs ih => simp [ih]

theorem octetCheck_map_ok (bs : List Nat) (hlt : ∀ x ∈ bs, x ≤ 255) :
    octetCheck (bs.map (fun b => PyElem.int (Int.ofNat b))) = none := by
  unfold octetCheck
  have hall : ((bs.map (fun b => PyElem.int (Int.ofNat b))).all
      (fun e => match e with | .int _ => true | .other => false)) = true := by
    rw [listAllMap]
    simp
  have hany : ((bs.map (fun b => PyElem.int (Int.ofNat b))).any
      (fun e => match e with
        | .int n => decide (255 < n)
        | .other => false)) = false := by
    rw [listAnyMap, List.any_eq_false]
    intro x hx
    simp only [decide_eq_true_eq, Int.ofNat_eq_coe]
    have := hlt x hx
    omega
  rw [if_pos hall, if_neg (by rw [hany]; exact Bool.false_ne_true)]

theorem lengthCheck_map (bs : List Nat)
    (hlen : bs.length ∈ VIABLE_OCTET_COUNTS) :
    lengthCheck (bs.map (fun b => PyElem.int (Int.ofNat b))) = none := by
  unfold lengthCheck
  rw [if_pos (by simpa using hlen)]

theorem lengthCheck_map_bad (bs : List Nat)
    (hlen : bs.length ∉ VIABLE_OCTET_COUNTS) :
    lengthCheck (bs.map (fun b => PyElem.int (Int.ofNat b))) =
      some (.badLength bs.length) := by
  unfold lengthCheck
  rw [if_neg (by simpa using hlen)]
  simp

theorem bytesConv_map (bs : List Nat) (hlt : ∀ x ∈ bs, x ≤ 255) :
    bytesConv (bs.map (fun b => PyElem.int (Int.ofNat b))) = .ok bs := by
  unfold bytesConv
  have hall : ((bs.map (fun b => PyElem.int (Int.ofNat b))).all
      (fun e => match e with
        | .int n => decide (0 ≤ n ∧ n ≤ 255)
        | .other => false)) = true := by
    rw [listAllMap, List.all_eq_true]
    intro x hx
    simp only [decide_eq_true_eq, Int.ofNat_eq_coe]
    have := hlt x hx
    omega
  rw [if_pos hall]
  congr 1
  rw [List.map_map]
  have : ((fun e => match e with
      | PyElem.int n => n.toNat
      | PyElem.other => 0) ∘ fun b => PyElem.int (Int.ofNat b)) =
      fun b : Nat => (Int.ofNat b).toNat := rfl
  rw [this]
  simp [Int.toNat_ofNat]

theorem dispatchCheck_map (bs : List Nat) (hne : bs ≠ []) :
    dispatchCheck (.seqVal (bs.map (fun b => PyElem.int (Int.ofNat b)))) =
      none := by
  cases bs with
  | nil => exact absurd rfl hne
  | cons b rest => rfl

theorem checks_ok (bs : List Nat) (hne : bs ≠ [])
    (hlt : ∀ x ∈ bs, x ≤ 255) (hlen : bs.length ∈ VIABLE_OCTET_COUNTS) :
    runChecks (.seqVal (bs.map (fun b => PyElem.int (Int.ofNat b)))) =
      .ok bs := by
  unfold runChecks
  rw [dispatchCheck_map bs hne]
  dsimp only
  rw [octetCheck_map_ok bs hlt]
  dsimp only
  rw [lengthCheck_map bs hlen]
  dsimp only
  exact bytesConv_map bs hlt

theorem checks_badLength (bs : List Nat) (hne : bs ≠ [])
    (hlt : ∀ x ∈ bs, x ≤ 255) (hlen : bs.length ∉ VIABLE_OCTET_COUNTS) :
    runChecks (.seqVal (bs.map (fun b => PyElem.int (Int.ofNat b)))) =
      .error (.badLength bs.length) := by
  unfold runChecks
  rw [dispatchCheck_map bs hne]
  dsimp only
  rw [octetCheck_map_ok bs hlt]
  dsimp only
  rw [lengthCheck_map_bad bs hlen]

/-! ### Behaviour of the pattern table on canonical formatted strings -/

theorem firstSome_some {α : Type} :
    ∀ {l : List (Option α)} {x : α}, firstSome l = some x → some x ∈ l
  | [], x, h => by cases h
  | some y :: rest, x, h => by
    rw [show firstSome (some y :: rest) = some y from rfl] at h
    rw [← h]
    simp
  | none :: rest, x, h => by
    have := firstSome_some (l := rest) (x := x) h
    exact List.mem_cons_of_mem _ this

theorem format_group_facts {a : List Nat} (ha : ∀ x ∈ a, x < 256) :
    ∀ g ∈ a.map byteHex, g.length = 2 ∧ g.all isHexDigit = true ∧
      ':' ∉ g ∧ '-' ∉ g ∧ '.' ∉ g := by
  intro g hg
  obtain ⟨b, hb, rfl⟩ := List.mem_map.1 hg
  have hblt := ha b hb
  exact ⟨byteHex_length b, byteHex_hex hblt,
    not_mem_byteHex hblt (Or.inl rfl),
    not_mem_byteHex hblt (Or.inr (Or.inl rfl)),
    not_mem_byteHex hblt (Or.inr (Or.inr rfl))⟩

theorem splitOnChar_format {a : List Nat} (ha : ∀ x ∈ a, x < 256)
    (hne : a ≠ []) : splitOnChar ':' (formatMac a) = a.map byteHex := by
  unfold formatMac
  exact splitOnChar_joinWith ':' (a.map byteHex)
    (by simpa using hne) (fun g hg => (format_group_facts ha g hg).2.2.1)

theorem matchWithDelim_format {a : List Nat} (ha : ∀ x ∈ a, x < 256)
    (hne : a ≠ []) (g : Nat) :
    matchWithDelim ':' 1 g (formatMac a) = decide (a.length = g) := by
  unfold matchWithDelim
  rw [splitOnChar_format ha hne]
  have hall : (a.map byteHex).all (goodGroup 1) = true := by
    rw [List.all_eq_true]
    intro p hp
    obtain ⟨hl, hh, -, -, -⟩ := format_group_facts ha p hp
    unfold goodGroup
    simp [hl, hh]
  rw [hall, List.length_map]
  simp

theorem matchWithDelim_of_not_mem {c : Char} {s : List Char} (h : c ∉ s)
    {w g : Nat} (hg : 2 ≤ g) : matchWithDelim c w g s = false := by
  unfold matchWithDelim
  rw [splitOnChar_of_not_mem h]
  simp only [List.length_singleton]
  have : decide (1 = g) = false := by simp; omega
  rw [this, Bool.false_and]

theorem matchNoDelim_of_nonhex_mem {c : Char} {s : List Char} (hmem : c ∈ s)
    (hc : isHexDigit c = false) (w g : Nat) : matchNoDelim w g s = false := by
  unfold matchNoDelim
  have : s.all isHexDigit = false := by
    rw [List.all_eq_false]
    exact ⟨c, hmem, by simp [hc]⟩
  rw [this, Bool.and_false]

theorem colon_mem_format {a : List Nat} (h2 : 2 ≤ a.length) :
    ':' ∈ formatMac a := by
  unfold formatMac
  match a, h2 with
  | b1 :: b2 :: rest, _ =>
    exact self_mem_joinWith ':' (byteHex b1) (byteHex b2) (rest.map byteHex)

theorem not_mem_format {a : List Nat} (ha : ∀ x ∈ a, x < 256) {c : Char}
    (hcol : c ≠ ':') (hc : c = '-' ∨ c = '.') : c ∉ formatMac a := by
  intro hmem
  unfold formatMac at hmem
  rcases mem_joinWith ':' _ c hmem with hce | ⟨g, hg, hcg⟩
  · exact hcol hce
  · obtain ⟨-, -, -, hd, hp⟩ := format_group_facts ha g hg
    rcases hc with rfl | rfl
    · exact hd hcg
    · exact hp hcg

theorem runPattern_w1_format {a : List Nat} (ha : ∀ x ∈ a, x < 256)
    (h2 : 2 ≤ a.length) (g : Nat) (hg : 2 ≤ g) :
    patternMatch 1 [':', '-'] g (formatMac a) =
      if a.length = g then some (some ':') else none := by
  have hne : a ≠ [] := by intro h; rw [h] at h2; simp at h2
  have hdash : '-' ∉ formatMac a :=
    not_mem_format ha (by decide) (Or.inl rfl)
  unfold patternMatch
  by_cases heq : a.length = g
  · rw [List.find?_cons_of_pos _
      (by rw [matchWithDelim_format ha hne g]; simp [heq])]
    rw [if_pos heq]
  · rw [List.find?_cons_of_neg _
      (by rw [matchWithDelim_format ha hne g]; simp [heq]),
      List.find?_cons_of_neg _
      (by rw [matchWithDelim_of_not_mem hdash hg]; simp)]
    rw [show List.find? (fun c => matchWithDelim c 1 g (formatMac a)) [] = none
      from rfl]
    dsimp only
    rw [if_neg, if_neg heq]
    rw [matchNoDelim_of_nonhex_mem (colon_mem_format h2) (by decide) 1 g]
    exact Bool.false_ne_true

theorem runPattern_w2_format {a : List Nat} (ha : ∀ x ∈ a, x < 256)
    (h2 : 2 ≤ a.length) (g : Nat) (hg : 2 ≤ g) :
    patternMatch 2 ['.'] g (formatMac a) = none := by
  have hdot : '.' ∉ formatMac a :=
    not_mem_format ha (by decide) (Or.inr rfl)
  unfold patternMatch
  rw [List.find?_cons_of_neg _
    (by rw [matchWithDelim_of_not_mem hdot hg]; simp)]
  rw [show List.find? (fun c => matchWithDelim c 2 g (formatMac a)) [] = none
    from rfl]
  dsimp only
  rw [if_neg]
  rw [matchNoDelim_of_nonhex_mem (colon_mem_format h2) (by decide) 2 g]
  exact Bool.false_ne_true

theorem findMatch_format {a : List Nat} (ha : ∀ x ∈ a, x < 256)
    (hlen : a.length ∈ VIABLE_OCTET_COUNTS) :
    findMatch (formatMac a) = some (some ':') := by
  have hlen3 : a.length = 6 ∨ a.length = 8 ∨ a.length = 20 := by
    simpa [VIABLE_OCTET_COUNTS] using hlen
  have h2 : 2 ≤ a.length := by omega
  unfold findMatch REGEX_PATTERNS
  simp only [List.map_cons, List.map_nil, runPattern]
  rw [runPattern_w1_format ha h2 6 (by omega),
    runPattern_w1_format ha h2 8 (by omega),
    runPattern_w1_format ha h2 20 (by omega),
    runPattern_w2_format ha h2 3 (by omega),
    runPattern_w2_format ha h2 4 (by omega),
    runPattern_w2_format ha h2 10 (by omega)]
  rcases hlen3 with h | h | h
  · rw [if_pos h]
    rfl
  · rw [if_neg (by rw [h]; omega), if_pos h]
    rfl
  · rw [if_neg (by rw [h]; omega), if_neg (by rw [h]; omega), if_pos h]
    rfl

theorem strToBytes_format {a : List Nat} (ha : ∀ x ∈ a, x < 256)
    (hlen : a.length ∈ VIABLE_OCTET_COUNTS) :
    strToBytes (formatMac a) = .ok a := by
  unfold strToBytes
  rw [findMatch_format ha hlen]
  dsimp only
  have hstrip : removeChar ':' (formatMac a) = (a.map byteHex).flatten := by
    unfold formatMac
    exact removeChar_joinWith ':' (a.map byteHex)
      (fun g hg => (format_group_facts ha g hg).2.2.1)
  rw [hstrip]
  have hflen : ((a.map byteHex).flatten).length = 2 * a.length := by
    rw [length_flatten_const _ (fun g hg => (format_group_facts ha g hg).1),
      List.length_map]
  rw [hflen, hexVal_flatten_byteHex a ha,
    show 2 * a.length / 2 = a.length from by omega,
    toBytesBE_fromBytesBE a ha]

theorem validate_str_of_strToBytes {s : List Char} {bs : List Nat}
    (h : strToBytes s = .ok bs) (hne : bs ≠ [])
    (hlt : ∀ x ∈ bs, x ≤ 255) (hlen : bs.length ∈ VIABLE_OCTET_COUNTS) :
    validate_mac_address (.str s) = .ok bs := by
  unfold validate_mac_address
  dsimp only
  rw [h]
  dsimp only
  exact checks_ok bs hne hlt hlen

/-- C1: for every valid CanonicalAddress `a` (a byte sequence of length 6,
8, or 20 with every element in `[0, 255]`), parsing its canonical text form
returns the same address: `parse(format(a)) == a`. -/
theorem C1_roundtrip (a : List Nat) (hlen : a.length ∈ VIABLE_OCTET_COUNTS)
    (hlt : ∀ x ∈ a, x ≤ 255) :
    validate_mac_address (.str (formatMac a)) = .ok a := by
  have ha : ∀ x ∈ a, x < 256 := fun x hx => by have := hlt x hx; omega
  have hne : a ≠ [] := by
    have h3 : a.length = 6 ∨ a.length = 8 ∨ a.length = 20 := by
      simpa [VIABLE_OCTET_COUNTS] using hlen
    intro h
    rw [h] at h3
    simp at h3
  exact validate_str_of_strToBytes (strToBytes_format ha hlen) hne hlt hlen

/-- Witness for C1 at the concrete address `[0, 0, 94, 0, 83, 1]`
(`"00:00:5e:00:53:01"`). -/
theorem C1_roundtrip_witness :
    ([0, 0, 94, 0, 83, 1] : List Nat).length ∈ VIABLE_OCTET_COUNTS ∧
      (∀ x ∈ ([0, 0, 94, 0, 83, 1] : List Nat), x ≤ 255) ∧
      validate_mac_address (.str (formatMac [0, 0, 94, 0, 83, 1])) =
        .ok [0, 0, 94, 0, 83, 1] :=
  ⟨by decide, by decide, C1_roundtrip [0, 0, 94, 0, 83, 1] (by decide) (by decide)⟩

/-! ### Lemmas about the integer path -/

theorem pyBitLength_bound (v : Nat) : v < 2 ^ pyBitLength v := by
  unfold pyBitLength
  split
  · omega
  · exact Nat.lt_log2_self

theorem minOctets_bits (v : Nat) : pyBitLength v ≤ 8 * minOctets v := by
  unfold minOctets
  split_ifs <;> omega

theorem v_lt_pow_minOctets (v : Nat) : v < 256 ^ minOctets v := by
  calc v < 2 ^ pyBitLength v := pyBitLength_bound v
    _ ≤ 2 ^ (8 * minOctets v) :=
      Nat.pow_le_pow_right (by norm_num) (minOctets_bits v)
    _ = 256 ^ minOctets v := by rw [pow_mul]; norm_num

theorem pickOctets_ge (m : Nat) : m ≤ pickOctets m := by
  unfold pickOctets
  split_ifs <;> omega

theorem pickOctets_mem {m : Nat} (h : m ≤ 20) :
    pickOctets m ∈ VIABLE_OCTET_COUNTS := by
  unfold pickOctets
  split_ifs with a b
  · simp [VIABLE_OCTET_COUNTS]
  · simp [VIABLE_OCTET_COUNTS]
  · simp [VIABLE_OCTET_COUNTS]

theorem pickOctets_min (m : Nat) :
    ∀ k ∈ VIABLE_OCTET_COUNTS, m ≤ k → pickOctets m ≤ k := by
  intro k hk hmk
  have h3 : k = 6 ∨ k = 8 ∨ k = 20 := by
    simpa [VIABLE_OCTET_COUNTS] using hk
  unfold pickOctets
  split_ifs <;> omega

theorem pickOctets_big {m : Nat} (h : 20 < m) : pickOctets m = m := by
  unfold pickOctets
  split_ifs <;> omega

theorem minOctets_eq (v b : Nat) (h : pyBitLength v = b) :
    minOctets v = b / 8 + (if b % 8 > 0 then 1 else 0) := by
  unfold minOctets
  rw [h]

theorem validate_int_eq (v : Nat) :
    validate_mac_address (.int (Int.ofNat v)) =
      runChecks (.seqVal
        ((intToBytes v).map (fun b => PyElem.int (Int.ofNat b)))) := by
  unfold validate_mac_address
  dsimp only
  rw [if_pos (show (0 : Int) ≤ Int.ofNat v from Int.ofNat_nonneg v)]
  rfl

/-- C3: for every non-negative integer `v` whose minimum octet count is at
most 20, parse selects the smallest count in `{6, 8, 20}` that is at least
the minimum, and encodes `v` as exactly that many big-endian bytes
zero-padded on the left (the length is the target and decoding recovers
`v`); in particular `parse(0)` yields six zero octets, formatted
`"00:00:00:00:00:00"`. -/
theorem C3_int_encoding :
    (∀ v : Nat, minOctets v ≤ 20 →
      validate_mac_address (.int (Int.ofNat v)) =
        .ok (toBytesBE (pickOctets (minOctets v)) v) ∧
      pickOctets (minOctets v) ∈ VIABLE_OCTET_COUNTS ∧
      minOctets v ≤ pickOctets (minOctets v) ∧
      (∀ k ∈ VIABLE_OCTET_COUNTS, minOctets v ≤ k →
        pickOctets (minOctets v) ≤ k) ∧
      (toBytesBE (pickOctets (minOctets v)) v).length =
        pickOctets (minOctets v) ∧
      fromBytesBE (toBytesBE (pickOctets (minOctets v)) v) = v) ∧
    validate_mac_address (.int 0) = .ok [0, 0, 0, 0, 0, 0] ∧
    formatMac [0, 0, 0, 0, 0, 0] = "00:00:00:00:00:00".toList := by
  refine ⟨fun v hv => ?_, by decide, by decide⟩
  have hmem := pickOctets_mem hv
  have hpos : 0 < pickOctets (minOctets v) := by
    have h3 : pickOctets (minOctets v) = 6 ∨ pickOctets (minOctets v) = 8 ∨
        pickOctets (minOctets v) = 20 := by
      simpa [VIABLE_OCTET_COUNTS] using hmem
    omega
  have hok : validate_mac_address (.int (Int.ofNat v)) =
      .ok (intToBytes v) := by
    rw [validate_int_eq v]
    apply checks_ok
    · apply List.ne_nil_of_length_pos
      rw [intToBytes, toBytesBE_length]
      exact hpos
    · intro x hx
      have := toBytesBE_lt _ _ x hx
      omega
    · rw [intToBytes, toBytesBE_length]
      exact hmem
  refine ⟨hok, hmem, pickOctets_ge _, pickOctets_min _, toBytesBE_length _ _,
    ?_⟩
  refine fromBytesBE_toBytesBE _ v (lt_of_lt_of_le (v_lt_pow_minOctets v) ?_)
  exact Nat.pow_le_pow_right (by norm_num) (pickOctets_ge _)

/-- Witness for C3 at the spec example `0x0102030405060708`, which needs
exactly 8 octets. -/
theorem C3_int_encoding_witness :
    minOctets 72623859790382856 ≤ 20 ∧
      validate_mac_address (.int (Int.ofNat 72623859790382856)) =
        .ok [1, 2, 3, 4, 5, 6, 7, 8] := by
  have hl : Nat.log2 72623859790382856 = 56 := by
    have h1 : (2 : Nat) ^ 56 ≤ 72623859790382856 := by norm_num
    have h2 : 72623859790382856 < 2 ^ 57 := by norm_num
    have h3 := (Nat.le_log2 (by norm_num)).2 h1
    have h4 := (Nat.log2_lt (by norm_num)).2 h2
    omega
  have hb : pyBitLength 72623859790382856 = 57 := by
    unfold pyBitLength
    rw [if_neg (show ¬(72623859790382856 = 0) from by norm_num), hl]
  have hm : minOctets 72623859790382856 = 8 := by
    rw [minOctets_eq _ 57 hb]
    decide
  have hv := (C3_int_encoding.1 72623859790382856 (by rw [hm]; omega)).1
  refine ⟨by rw [hm]; omega, ?_⟩
  rw [hv, hm]
  decide

theorem minOctets_ge_21 {v : Nat} (h : 2 ^ 160 ≤ v) : 21 ≤ minOctets v := by
  have hv0 : v ≠ 0 := by
    intro h0
    rw [h0] at h
    norm_num at h
  have hlog : 160 ≤ Nat.log2 v := (Nat.le_log2 hv0).2 h
  have hbl : 161 ≤ pyBitLength v := by
    unfold pyBitLength
    rw [if_neg hv0]
    omega
  unfold minOctets
  split_ifs <;> omega

/-- C7: every non-negative integer needing more than 20 octets (that is,
every `v ≥ 2^160`) fails validation with the structured length error
carrying `min_octets` itself, instead of being silently truncated. -/
theorem C7_overlong_int (v : Nat) (h : 2 ^ 160 ≤ v) :
    validate_mac_address (.int (Int.ofNat v)) =
      .error (.badLength (minOctets v)) ∧
    20 < minOctets v ∧ (MacErr.badLength (minOctets v)).structured = true := by
  have h21 := minOctets_ge_21 h
  have hpick : pickOctets (minOctets v) = minOctets v :=
    pickOctets_big (by omega)
  refine ⟨?_, by omega, rfl⟩
  rw [validate_int_eq v]
  have he : intToBytes v = toBytesBE (minOctets v) v := by
    rw [intToBytes, hpick]
  rw [he]
  have hbad := checks_badLength (toBytesBE (minOctets v) v)
    (by
      apply List.ne_nil_of_length_pos
      rw [toBytesBE_length]
      omega)
    (fun x hx => by have := toBytesBE_lt _ _ x hx; omega)
    (by
      rw [toBytesBE_length]
      simp only [VIABLE_OCTET_COUNTS, List.mem_cons, List.not_mem_nil,
        or_false]
      omega)
  rw [hbad, toBytesBE_length]

/-- Witness for C7 at `v = 2^160`, the smallest integer needing 21 octets. -/
theorem C7_overlong_int_witness :
    2 ^ 160 ≤ (2 ^ 160 : Nat) ∧
      validate_mac_address (.int (Int.ofNat (2 ^ 160))) =
        .error (.badLength 21) := by
  have hl : Nat.log2 (2 ^ 160 : Nat) = 160 := by
    have h1 : (2 : Nat) ^ 160 ≤ 2 ^ 160 := Nat.le_refl _
    have h2 : (2 : Nat) ^ 160 < 2 ^ 161 :=
      Nat.pow_lt_pow_right (by norm_num) (by norm_num)
    have hpos : (0 : Nat) < 2 ^ 160 := by positivity
    have h3 := (Nat.le_log2 hpos.ne').2 h1
    have h4 := (Nat.log2_lt hpos.ne').2 h2
    omega
  have hb : pyBitLength (2 ^ 160 : Nat) = 161 := by
    unfold pyBitLength
    rw [if_neg (show ¬((2 : Nat) ^ 160 = 0) from by positivity), hl]
  have hm : minOctets (2 ^ 160 : Nat) = 21 := by
    rw [minOctets_eq _ 161 hb]
    decide
  have h := (C7_overlong_int (2 ^ 160) (Nat.le_refl _)).1
  exact ⟨Nat.le_refl _, by rw [h, hm]⟩

/-! ### Error classification of the individual checks -/

theorem octetCheck_cases {xs : List PyElem} {e : MacErr}
    (h : octetCheck xs = some e) :
    e = .octetTooBig ∨ e = .typeError := by
  unfold octetCheck at h
  split_ifs at h <;> simp_all

theorem lengthCheck_cases {xs : List PyElem} {e : MacErr}
    (h : lengthCheck xs = some e) : e = .badLength xs.length := by
  unfold lengthCheck at h
  split_ifs at h
  all_goals simp_all

theorem bytesConv_cases {xs : List PyElem} {e : MacErr}
    (h : bytesConv xs = .error e) : e = .valueError := by
  unfold bytesConv at h
  split_ifs at h
  all_goals simp_all

theorem validate_seq_int_head_not_unrecognized (n : Int) (rest : List PyElem) :
    validate_mac_address (.seq (PyElem.int n :: rest)) ≠
      .error .unrecognized := by
  show runChecks (.seqVal (PyElem.int n :: rest)) ≠ .error .unrecognized
  unfold runChecks
  rw [show dispatchCheck (.seqVal (PyElem.int n :: rest)) = none from rfl]
  dsimp only
  cases hoct : octetCheck (PyElem.int n :: rest) with
  | some e =>
    rcases octetCheck_cases hoct with rfl | rfl <;> intro hc <;>
      injection hc with hc <;> cases hc
  | none =>
    dsimp only
    cases hlen : lengthCheck (PyElem.int n :: rest) with
    | some e =>
      have := lengthCheck_cases hlen
      subst this
      intro hc
      injection hc with hc
      cases hc
    | none =>
      dsimp only
      cases hconv : bytesConv (PyElem.int n :: rest) with
      | error e =>
        have := bytesConv_cases hconv
        subst this
        intro hc
        injection hc with hc
        cases hc
      | ok bs => intro hc; cases hc

/-- C4: the claim that parse never raises an uncontrolled fault fails on
the code: the empty sequence crashes the `value[0]` access with an
uncontrolled `IndexError`, and a sequence mixing element types crashes the
`octet > 0xff` comparison with an uncontrolled `TypeError`; neither is a
structured validation error. -/
theorem C4_uncontrolled_faults :
    validate_mac_address (.seq []) = .error .indexError ∧
      MacErr.structured .indexError = false ∧
      validate_mac_address (.seq [.int 1, .other]) = .error .typeError ∧
      MacErr.structured .typeError = false := by decide

/-- C5: the 8-bit octet check only tests the upper bound.  An octet above
255 does fail with the structured 8-bit error, but a negative octet slips
past the check and crashes the final `bytes(value)` conversion with an
uncontrolled `ValueError` instead of the claimed `mac_address_format`
error. -/
theorem C5_octet_range :
    validate_mac_address
        (.seq (([-1, 0, 0, 0, 0, 0] : List Int).map PyElem.int)) =
      .error .valueError ∧
      MacErr.structured .valueError = false ∧
      validate_mac_address
          (.seq (([300, 0, 0, 0, 0, 0] : List Int).map PyElem.int)) =
        .error .octetTooBig ∧
      MacErr.structured .octetTooBig = true := by decide

/-- C9 (amended): for every nonempty sequence of integers in `[0, 255]`,
a length in `{6, 8, 20}` passes the sequence through unchanged and any
other length fails with the structured length error reporting the valid
set and the offending length; the concrete sequence `[0, 0, 94, 0, 83, 1]`
validates and formats as `"00:00:5e:00:53:01"`.  (The empty sequence is
excluded: it crashes the first-element check instead, see the
counterexample.) -/
theorem C9_seq_passthrough :
    (∀ xs : List Nat, xs ≠ [] → (∀ x ∈ xs, x ≤ 255) →
      (xs.length ∈ VIABLE_OCTET_COUNTS →
        validate_mac_address
          (.seq (xs.map (fun b => PyElem.int (Int.ofNat b)))) = .ok xs) ∧
      (xs.length ∉ VIABLE_OCTET_COUNTS →
        validate_mac_address
          (.seq (xs.map (fun b => PyElem.int (Int.ofNat b)))) =
          .error (.badLength xs.length))) ∧
    validate_mac_address (.seq (([0, 0, 94, 0, 83, 1] : List Nat).map
      (fun b => PyElem.int (Int.ofNat b)))) = .ok [0, 0, 94, 0, 83, 1] ∧
    formatMac [0, 0, 94, 0, 83, 1] = "00:00:5e:00:53:01".toList := by
  refine ⟨fun xs hne hlt => ⟨fun hmem => ?_, fun hmem => ?_⟩,
    by decide, by decide⟩
  · exact checks_ok xs hne hlt hmem
  · exact checks_badLength xs hne hlt hmem

/-- Counterexample for C9 as stated: the empty sequence has all (zero)
elements in range and length `0 ∉ {6, 8, 20}`, but instead of the claimed
FormatError with `n = 0` the code raises an uncontrolled `IndexError`. -/
theorem C9_empty_counterexample :
    validate_mac_address (.seq []) = .error .indexError ∧
      MacErr.indexError ≠ MacErr.badLength 0 := by decide

/-- Witness for C9 at the length-7 sequence `[0, 0, 0, 0, 0, 0, 0]`. -/
theorem C9_seq_passthrough_witness :
    (([0, 0, 0, 0, 0, 0, 0] : List Nat) ≠ [] ∧
      (∀ x ∈ ([0, 0, 0, 0, 0, 0, 0] : List Nat), x ≤ 255) ∧
      ([0, 0, 0, 0, 0, 0, 0] : List Nat).length ∉ VIABLE_OCTET_COUNTS) ∧
      validate_mac_address (.seq (([0, 0, 0, 0, 0, 0, 0] : List Nat).map
        (fun b => PyElem.int (Int.ofNat b)))) = .error (.badLength 7) :=
  ⟨⟨by decide, by decide, by decide⟩,
    (C9_seq_passthrough.1 [0, 0, 0, 0, 0, 0, 0] (by decide) (by decide)).2
      (by decide)⟩

/-- C10: the sequence shape check inspects only the first element.  A
non-empty sequence whose first element is an integer passes the dispatch
check whatever the remaining elements are; the unrecognized-format error
arises only for non-sequences (an `int` that fell through) or a
non-integer first element; the empty sequence hits the unguarded
`value[0]` access; and a sequence with an integer head can never produce
the unrecognized-format error from the later checks either. -/
theorem C10_dispatch_first_element :
    (∀ (n : Int) (rest : List PyElem),
      dispatchCheck (.seqVal (PyElem.int n :: rest)) = none) ∧
    dispatchCheck (.seqVal []) = some .indexError ∧
    (∀ rest : List PyElem,
      dispatchCheck (.seqVal (PyElem.other :: rest)) = some .unrecognized) ∧
    (∀ n : Int, dispatchCheck (.intVal n) = some .unrecognized) ∧
    (∀ (n : Int) (rest : List PyElem),
      validate_mac_address (.seq (PyElem.int n :: rest)) ≠
        .error .unrecognized) ∧
    validate_mac_address (.seq []) = .error .indexError :=
  ⟨fun _ _ => rfl, rfl, fun _ => rfl, fun _ => rfl,
    validate_seq_int_head_not_unrecognized, by decide⟩

/-- C8: a string containing two distinct delimiter characters can match no
pattern-table entry, so parse fails with the structured format error:
every entry requires all characters to be hex digits except for one single
consistent delimiter. -/
theorem C8_mixed_delimiters (s : List Char) (c1 c2 : Char)
    (h1d : c1 ∈ VALID_DELIMETERS) (h2d : c2 ∈ VALID_DELIMETERS)
    (hne : c1 ≠ c2) (h1 : c1 ∈ s) (h2 : c2 ∈ s) :
    validate_mac_address (.str s) = .error .lengthFormat := by
  have hx1 : isHexDigit c1 = false := by
    fin_cases h1d <;> decide
  have hx2 : isHexDigit c2 = false := by
    fin_cases h2d <;> decide
  have hfm : findMatch s = none := by
    unfold findMatch
    apply firstSome_eq_none
    intro o ho
    rw [List.mem_map] at ho
    obtain ⟨p, hp, rfl⟩ := ho
    exact patternMatch_none_two_delims h1 h2 hne hx1 hx2 p.width p.delims
      p.groups
  have hst : strToBytes s = .error .lengthFormat := by
    unfold strToBytes
    rw [hfm]
  unfold validate_mac_address
  dsimp only
  rw [hst]

/-- Witness for C8 at the spec's example `"00:00-5e:00:53:01"`, which
mixes `:` and `-`. -/
theorem C8_mixed_delimiters_witness :
    (':' ∈ VALID_DELIMETERS ∧ '-' ∈ VALID_DELIMETERS ∧ (':' : Char) ≠ '-' ∧
      ':' ∈ "00:00-5e:00:53:01".toList ∧ '-' ∈ "00:00-5e:00:53:01".toList) ∧
      validate_mac_address (.str "00:00-5e:00:53:01".toList) =
        .error .lengthFormat :=
  ⟨⟨by decide, by decide, by decide, by decide, by decide⟩,
    C8_mixed_delimiters "00:00-5e:00:53:01".toList ':' '-' (by decide)
      (by decide) (by decide) (by decide) (by decide)⟩

/-- C6 (amended): two different pattern-table entries can both match the
same string, but only when the string is bare hex with no delimiter: in
that case both captures are empty and both entries recognize the same
octet count, so first-match-wins does not change the outcome.  Entries
never overlap on a delimited string. -/
theorem C6_pattern_overlap (s : List Char) (p q : MacPattern)
    (d1 d2 : Option Char) (hp : p ∈ REGEX_PATTERNS) (hq : q ∈ REGEX_PATTERNS)
    (hpq : p ≠ q) (h1 : runPattern p s = some d1)
    (h2 : runPattern q s = some d2) :
    p.octets = q.octets ∧ d1 = none ∧ d2 = none := by
  have hd1 : ∀ c ∈ p.delims, isHexDigit c = false := by
    fin_cases hp <;> (intro c hc; fin_cases hc <;> decide)
  have hd2 : ∀ c ∈ q.delims, isHexDigit c = false := by
    fin_cases hq <;> (intro c hc; fin_cases hc <;> decide)
  have hg1 : 2 ≤ p.groups := by fin_cases hp <;> decide
  have hg2 : 2 ≤ q.groups := by fin_cases hq <;> decide
  have hshape : p.width ≠ q.width ∨ p.groups ≠ q.groups := by
    fin_cases hp <;> fin_cases hq <;> revert hpq <;> decide
  exact pattern_excl p.width p.groups q.width q.groups p.delims q.delims
    hd1 hd2 hg1 hg2 hshape s d1 d2 h1 h2

/-- Counterexample for C6 as stated: the bare-hex string `"aabbccddeeff"`
is matched by two different pattern-table entries (the width-1 and the
width-2 entry for 6 octets). -/
theorem C6_counterexample :
    (⟨1, [':', '-'], 6⟩ : MacPattern) ∈ REGEX_PATTERNS ∧
      (⟨2, ['.'], 3⟩ : MacPattern) ∈ REGEX_PATTERNS ∧
      (⟨1, [':', '-'], 6⟩ : MacPattern) ≠ ⟨2, ['.'], 3⟩ ∧
      runPattern ⟨1, [':', '-'], 6⟩ "aabbccddeeff".toList ≠ none ∧
      runPattern ⟨2, ['.'], 3⟩ "aabbccddeeff".toList ≠ none := by decide

/-- Witness for C6 (amended) at the overlapping pair of entries on
`"aabbccddeeff"`: both match with the empty capture and agree on 6
octets. -/
theorem C6_pattern_overlap_witness :
    (runPattern ⟨1, [':', '-'], 6⟩ "aabbccddeeff".toList = some none ∧
      runPattern ⟨2, ['.'], 3⟩ "aabbccddeeff".toList = some none) ∧
      (MacPattern.octets ⟨1, [':', '-'], 6⟩ =
        MacPattern.octets ⟨2, ['.'], 3⟩ ∧
        (none : Option Char) = none ∧ (none : Option Char) = none) :=
  ⟨⟨by decide, by decide⟩,
    C6_pattern_overlap "aabbccddeeff".toList ⟨1, [':', '-'], 6⟩
      ⟨2, ['.'], 3⟩ none none (by decide) (by decide) (by decide)
      (by decide) (by decide)⟩

/-! ### The canonicalization property of the text path -/

theorem canonical_of_stripped (stripped : List Char) (n : Nat)
    (hlen : stripped.length = 2 * n) (hhex : stripped.all isHexDigit = true) :
    (toBytesBE n (hexVal stripped)).length = n ∧
    (∀ x ∈ toBytesBE n (hexVal stripped), x ≤ 255) ∧
    formatMac (toBytesBE n (hexVal stripped)) =
      joinWith ':' (chunkPairs (stripped.map lowerHex)) := by
  refine ⟨toBytesBE_length n _,
    fun x hx => by have := toBytesBE_lt n _ x hx; omega, ?_⟩
  unfold formatMac
  congr 1
  have heven : stripped.length % 2 = 0 := by omega
  have hdiv : stripped.length / 2 = n := by omega
  have hflat := flatten_byteHex_toBytesBE stripped heven hhex
  rw [hdiv] at hflat
  rw [← hflat]
  exact (chunkPairs_flatten _ (fun gp hgp => by
    obtain ⟨b, hb, rfl⟩ := List.mem_map.1 hgp
    exact byteHex_length b)).symm

theorem strToBytes_canonical {s : List Char} {d : Option Char}
    (hm : findMatch s = some d) :
    ∃ bs : List Nat, strToBytes s = .ok bs ∧ bs ≠ [] ∧
      (∀ x ∈ bs, x ≤ 255) ∧ bs.length ∈ VIABLE_OCTET_COUNTS ∧
      formatMac bs = canonicalize s := by
  have hm' := hm
  unfold findMatch at hm'
  obtain ⟨p, hp, hrun⟩ := List.mem_map.1 (firstSome_some hm')
  have hoct : p.width * p.groups ∈ VIABLE_OCTET_COUNTS := by
    fin_cases hp <;> decide
  have hoct6 : 6 ≤ p.width * p.groups := by
    have h3 : p.width * p.groups = 6 ∨ p.width * p.groups = 8 ∨
        p.width * p.groups = 20 := by
      simpa [VIABLE_OCTET_COUNTS] using hoct
    omega
  cases d with
  | some c =>
    obtain ⟨m, hcd⟩ := patternMatch_some_delim hrun
    have hxc : isHexDigit c = false := by
      fin_cases hp <;> fin_cases hcd <;> decide
    obtain ⟨hplen, hparts⟩ := matchWithDelim_parts m
    have hjoin : joinWith c (splitOnChar c s) = s := joinWith_splitOnChar c s
    have hnomem : ∀ gp ∈ splitOnChar c s, c ∉ gp := by
      intro gp hgp hcg
      have hall := (hparts gp hgp).2
      rw [List.all_eq_true] at hall
      have := hall c hcg
      rw [hxc] at this
      cases this
    have hstrip : removeChar c s = (splitOnChar c s).flatten := by
      conv_lhs => rw [← hjoin]
      exact removeChar_joinWith c _ hnomem
    have hkeep : keepHex s = (splitOnChar c s).flatten := by
      conv_lhs => rw [← hjoin]
      exact keepHex_joinWith c hxc _ (fun gp hgp => (hparts gp hgp).2)
    have hflatlen : (splitOnChar c s).flatten.length =
        2 * (p.width * p.groups) := by
      rw [length_flatten_const _ (fun gp hgp => (hparts gp hgp).1), hplen]
      ring
    have hflathex : (splitOnChar c s).flatten.all isHexDigit = true := by
      rw [List.all_eq_true]
      intro x hx
      obtain ⟨gp, hgp, hxgp⟩ := List.mem_flatten.1 hx
      have hall := (hparts gp hgp).2
      rw [List.all_eq_true] at hall
      exact hall x hxgp
    obtain ⟨hblen, hblt, hbfmt⟩ :=
      canonical_of_stripped _ (p.width * p.groups) hflatlen hflathex
    refine ⟨toBytesBE (p.width * p.groups)
      (hexVal (splitOnChar c s).flatten), ?_, ?_, hblt, ?_, ?_⟩
    · unfold strToBytes
      rw [hm]
      dsimp only
      rw [hstrip, hflatlen]
      rw [show 2 * (p.width * p.groups) / 2 = p.width * p.groups from by omega]
    · apply List.ne_nil_of_length_pos
      rw [hblen]
      omega
    · rw [hblen]
      exact hoct
    · rw [hbfmt]
      unfold canonicalize
      rw [hkeep]
  | none =>
    have hno := patternMatch_some_empty hrun
    obtain ⟨hslen, hshex⟩ := matchNoDelim_spec hno
    have hslen2 : s.length = 2 * (p.width * p.groups) := by
      rw [hslen]; ring
    have hshex2 : s.all isHexDigit = true := by
      rw [List.all_eq_true]; exact hshex
    have hkeep : keepHex s = s := keepHex_of_all hshex2
    obtain ⟨hblen, hblt, hbfmt⟩ :=
      canonical_of_stripped s (p.width * p.groups) hslen2 hshex2
    refine ⟨toBytesBE (p.width * p.groups) (hexVal s), ?_, ?_, hblt, ?_, ?_⟩
    · unfold strToBytes
      rw [hm]
      dsimp only
      rw [hslen2,
        show 2 * (p.width * p.groups) / 2 = p.width * p.groups from by omega]
    · apply List.ne_nil_of_length_pos
      rw [hblen]
      omega
    · rw [hblen]
      exact hoct
    · rw [hbfmt]
      unfold canonicalize
      rw [hkeep]

/-- C2: for every string matched by one of the recognized grammars, the
canonical formatting of the parse result is the canonicalization of the
input (same hex value, lowercased, re-delimited with `:` between byte
pairs); in particular the dotted EUI-64 string `"0102.0304.0506.0708"`
parses to the same CanonicalAddress as `"01:02:03:04:05:06:07:08"`. -/
theorem C2_canonicalization :
    (∀ (s : List Char) (d : Option Char), findMatch s = some d →
      ∃ bs : List Nat, validate_mac_address (.str s) = .ok bs ∧
        formatMac bs = canonicalize s) ∧
    validate_mac_address (.str "0102.0304.0506.0708".toList) =
      validate_mac_address (.str "01:02:03:04:05:06:07:08".toList) := by
  refine ⟨fun s d hm => ?_, by decide⟩
  obtain ⟨bs, hok, hne, hlt, hlen, hcan⟩ := strToBytes_canonical hm
  exact ⟨bs, validate_str_of_strToBytes hok hne hlt hlen, hcan⟩

/-- Witness for C2 at the dotted EUI-64 spec example. -/
theorem C2_canonicalization_witness :
    findMatch "0102.0304.0506.0708".toList = some (some '.') ∧
      (∃ bs : List Nat,
        validate_mac_address (.str "0102.0304.0506.0708".toList) = .ok bs ∧
        formatMac bs = canonicalize "0102.0304.0506.0708".toList) :=
  ⟨by decide, C2_canonicalization.1 _ (some '.') (by decide)⟩
